import Mathlib

/-!
Shallow embedding of the JSON-subset parser in
`src/git-hub-user-activity/src/parser.rs` (with the data model of
`models.rs` and the error type of `error.rs`).

Conventions of the embedding:

* A Rust `&str` / `String` is a `List Char` (Rust `chars()` iterates
  Unicode scalar values, exactly Lean `Char`s).
* Rust byte-index slicing (`&s[a..b]`) is modelled by `byteTake` /
  `byteDrop` / `byteSlice`, which count UTF-8 bytes (`Char.utf8Size`)
  and return `none` exactly when Rust would panic: index out of range
  or not on a character boundary.  A panic is propagated as
  `PRes.panicked`.  This matters because `split_json_objects` and
  `extract_nested_object` compute *character* positions with
  `.chars().enumerate()` and then use them as *byte* indices.
* `str::find(&pattern)` returns the first byte offset of `pattern`;
  the code always immediately slices *after* the found pattern
  (`&json[start_pos + pattern.len()..]`).  Since a UTF-8 byte-level
  match of a valid pattern always sits on character boundaries, that
  composite is modelled by `findAfter`, which returns the suffix after
  the first occurrence of the pattern.
* `Result<T, ActivityError>` is `RustResult ActivityError T`.
-/

set_option linter.unusedVariables false
set_option maxRecDepth 8192

namespace GHParser

/-- Outcome of running Rust code that may abort with a `panic` (here, only
from string slicing at an invalid byte index): either the abort, or a
normal return value. -/
inductive PRes (α : Type) where
  | panicked : PRes α
  | ret : α → PRes α
deriving DecidableEq

/-- Map under `PRes`, propagating the abort. -/
def pmap {α β : Type} (f : α → β) : PRes α → PRes β
  | PRes.panicked => PRes.panicked
  | PRes.ret a => PRes.ret (f a)

/-- Rust `Result<T, E>` (constructor order as in Rust: `Ok`, `Err`). -/
inductive RustResult (ε α : Type) where
  | Ok : α → RustResult ε α
  | Err : ε → RustResult ε α
deriving DecidableEq

/-- Model of `ActivityError` from `error.rs`.  `u16` is modelled as `Nat`; the
parser only ever constructs `ParseError`. -/
inductive ActivityError where
  | NetworkError : String → ActivityError
  | InvalidUsername : String → ActivityError
  | ApiError : Nat → String → ActivityError
  | ParseError : String → ActivityError
  | NoEventsFound : ActivityError
deriving DecidableEq

/-- Model of `EventPayload` from `models.rs`.  `usize` is modelled as `Nat`;
the `String` fields hold characters taken from the input, a `List Char`. -/
inductive EventPayload where
  | Push : Nat → EventPayload
  | IssuesEvent : List Char → EventPayload
  | PullRequestEvent : List Char → EventPayload
  | WatchEvent : EventPayload
  | ForkEvent : EventPayload
  | CreateEvent : List Char → EventPayload
  | DeleteEvent : List Char → EventPayload
  | ReleaseEvent : List Char → EventPayload
  | IssueCommentEvent : EventPayload
  | PullRequestReviewCommentEvent : EventPayload
  | CommitCommentEvent : EventPayload
  | Unknown : EventPayload
deriving DecidableEq

/-- Model of `GitHubEvent` from `models.rs`. -/
structure GitHubEvent where
  event_type : List Char
  repo_name : List Char
  payload : EventPayload
deriving DecidableEq

/-- Rust `char::is_whitespace`: the Unicode `White_Space` property,
which is exactly this finite set of code points. -/
def rustIsWhitespace (c : Char) : Bool :=
  let n := c.toNat
  n == 0x20 || (0x09 ≤ n && n ≤ 0x0D) || n == 0x85 || n == 0xA0 ||
  n == 0x1680 || (0x2000 ≤ n && n ≤ 0x200A) || n == 0x2028 ||
  n == 0x2029 || n == 0x202F || n == 0x205F || n == 0x3000

/-- Rust `str::trim_start`. -/
def rustTrimStart (cs : List Char) : List Char :=
  cs.dropWhile rustIsWhitespace

/-- Rust `str::trim_end` (drop trailing whitespace). -/
def rustTrimEnd (cs : List Char) : List Char :=
  (cs.reverse.dropWhile rustIsWhitespace).reverse

/-- Rust `str::trim`. -/
def rustTrim (cs : List Char) : List Char :=
  rustTrimEnd (rustTrimStart cs)

/-- UTF-8 byte length of a string (`str::len` in Rust). -/
def byteLenL (cs : List Char) : Nat :=
  (cs.map Char.utf8Size).sum

/-- The characters making up the first `n` UTF-8 bytes of the string:
`some` exactly when byte index `n` is in range and on a character
boundary (otherwise Rust slicing `&s[..n]` panics). -/
def byteTake : List Char → Nat → Option (List Char)
  | _, 0 => some []
  | [], _ + 1 => none
  | c :: cs, n + 1 =>
    if c.utf8Size ≤ n + 1 then
      (byteTake cs (n + 1 - c.utf8Size)).map (fun t => c :: t)
    else none

/-- Drop the first `n` UTF-8 bytes of the string; `some` exactly when
byte index `n` is in range and on a character boundary. -/
def byteDrop : List Char → Nat → Option (List Char)
  | cs, 0 => some cs
  | [], _ + 1 => none
  | c :: cs, n + 1 =>
    if c.utf8Size ≤ n + 1 then byteDrop cs (n + 1 - c.utf8Size)
    else none

/-- Rust `&s[a..b]` on byte indices: `some` exactly when the slice is
well-formed (`a ≤ b`, both in range, both on character boundaries). -/
def byteSlice (cs : List Char) (a b : Nat) : Option (List Char) :=
  if a ≤ b then (byteTake cs b).bind (fun t => byteDrop t a) else none

/-- Model of `json.find(&pattern)` followed by slicing off everything up to and
including the pattern (`&json[start_pos + pattern.len()..]`): the suffix
after the first occurrence of `pat`, or `none` if `pat` does not occur. -/
def findAfter : List Char → List Char → Option (List Char)
  | [], pat => if pat.isEmpty then some [] else none
  | c :: cs, pat =>
    if pat.isPrefixOf (c :: cs) then some ((c :: cs).drop pat.length)
    else findAfter cs pat

/-- The search pattern `format!("\"{}\":", key)`. -/
def mkPattern (key : List Char) : List Char :=
  '"' :: (key ++ ['"', ':'])

/-- Rust `char::is_numeric` (Unicode categories Nd, Nl, No).  Modelled
here on the fragment this development evaluates: the ASCII digits and
the Arabic-Indic digit block U+0660–U+0669 (both inside Nd).  Other
numeric code points exist in Unicode but never occur in any input
below. -/
def rustIsNumeric (c : Char) : Bool :=
  c.isDigit || (0x660 ≤ c.toNat && c.toNat ≤ 0x669)

/-- Value of a run of ASCII digits. -/
def digitsToNat (ds : List Char) : Nat :=
  ds.foldl (fun a c => a * 10 + (c.toNat - 48)) 0

/-- Rust `str::parse::<usize>()` (as `Option`, i.e. `.ok()`): an
optional leading `+`, then one or more ASCII digits, value at most
`usize::MAX` (the target is 64-bit, so `2 ^ 64 - 1`); anything else is
a parse failure. -/
def parseUsize (s : List Char) : Option Nat :=
  let ds := match s with
    | '+' :: rest => rest
    | _ => s
  if ds.isEmpty then none
  else if ds.all Char.isDigit then
    if digitsToNat ds < 2 ^ 64 then some (digitsToNat ds) else none
  else none

/-! The extractor family (parser.rs lines 179–286). -/

/-- Loop body of `extract_number_value` (parser.rs 191–198): starting
from `end_pos = 0`, add `ch.len_utf8()` for each leading character with
`ch.is_numeric()`, stopping at the first non-numeric character. -/
def numEndPos : List Char → Nat
  | [] => 0
  | c :: cs => if rustIsNumeric c then c.utf8Size + numEndPos cs else 0

/-- Model of `extract_number_value` (parser.rs 184–206).  Locate `"key":`, skip
whitespace, measure the numeric run in bytes, slice it off by byte
index and `parse()` it.  The byte slice `&after_colon[..end_pos]` is
kept explicit (panic on a bad index), like the source. -/
def extract_number_value (json key : List Char) : PRes (Option Nat) :=
  match findAfter json (mkPattern key) with
  | none => PRes.ret none
  | some rest =>
    let after_colon := rustTrimStart rest
    let end_pos := numEndPos after_colon
    if end_pos = 0 then PRes.ret none
    else
      match byteTake after_colon end_pos with
      | none => PRes.panicked
      | some run => PRes.ret (parseUsize run)

/-- The `while` loop of `extract_string_value` (parser.rs 234–240):
`pos` starts at 1 and `chars[pos]` is examined against `chars[pos - 1]`;
here the list argument is `chars.drop pos` and `prev` is
`chars[pos - 1]` (the loop only ever moves forward one character at a
time, so carrying the previous character is the same computation).
Returns the final `end_pos`. -/
def scanClose (prev : Char) (pos : Nat) : List Char → Nat
  | [] => pos
  | c :: cs => if c == '"' && prev != '\\' then pos else scanClose c (pos + 1) cs

/-- Model of `extract_string_value` (parser.rs 210–245).  Locate `"key":`, skip
whitespace, require a leading `"`, then collect characters up to the
first `"` whose immediately preceding character is not `\`; the
collected characters are returned verbatim.  This function only ever
indexes the collected `Vec<char>` by character position, so it cannot
panic. -/
def extract_string_value (json key : List Char) : Option (List Char) :=
  match findAfter json (mkPattern key) with
  | none => none
  | some rest =>
    match rustTrimStart rest with
    | [] => none
    | q :: tl =>
      if q = '"' then some (tl.take (scanClose q 1 tl - 1))
      else none

/-- The brace-depth loop of `extract_nested_object` (parser.rs
264–279): walking `after_colon` from character index 0 with `depth = 0`,
`{` increments, `}` decrements and, when the depth reaches 0, the loop
breaks with `end_pos = i + 1`.  Returns `none` when the loop runs off
the end (leaving `end_pos = 0` in the source, which then yields `None`). -/
def braceEndLoop : List Char → Int → Nat → Option Nat
  | [], _, _ => none
  | c :: cs, depth, i =>
    if c = '\x7b' then braceEndLoop cs (depth + 1) (i + 1)
    else if c = '\x7d' then
      if depth - 1 = 0 then some (i + 1) else braceEndLoop cs (depth - 1) (i + 1)
    else braceEndLoop cs depth (i + 1)

/-- Model of `extract_nested_object` (parser.rs 252–286).  Locate `"key":`, skip
whitespace, require a leading `{`, find the matching `}` by depth
counting over characters, then slice `&after_colon[..end_pos]` —
crucially, `end_pos` is a character index used as a byte index, so the
slice panics (modelled by `PRes.panicked`) when the text before the
matching brace is not pure ASCII and the index lands off a character
boundary. -/
def extract_nested_object (json key : List Char) : PRes (Option (List Char)) :=
  match findAfter json (mkPattern key) with
  | none => PRes.ret none
  | some rest =>
    let after_colon := rustTrimStart rest
    if after_colon.head? = some '\x7b' then
      match braceEndLoop after_colon 0 0 with
      | none => PRes.ret none
      | some end_pos =>
        match byteTake after_colon end_pos with
        | none => PRes.panicked
        | some s => PRes.ret (some s)
    else PRes.ret none

/-! The top-level array splitter (parser.rs 59–91). -/

/-- The character loop of `split_json_objects` (parser.rs 67–88):
`i` is the character index, `depth` the brace depth, `start` the
character index recorded at the last `{` seen at depth 0.  On a `}`
that returns the depth to 0, the object is `&content[start..=i]` —
again character indices used as byte indices, hence the explicit
`byteSlice` with a panic on a bad boundary — and is pushed after
`.trim()`. -/
def splitLoop (content : List Char) : List Char → Nat → Int → Nat → PRes (List (List Char))
  | [], _, _, _ => PRes.ret []
  | c :: cs, i, depth, start =>
    if c = '\x7b' then
      splitLoop content cs (i + 1) (depth + 1) (if depth = 0 then i else start)
    else if c = '\x7d' then
      if depth - 1 = 0 then
        match byteSlice content start (i + 1) with
        | none => PRes.panicked
        | some obj => pmap (fun l => rustTrim obj :: l) (splitLoop content cs (i + 1) (depth - 1) start)
      else splitLoop content cs (i + 1) (depth - 1) start
    else splitLoop content cs (i + 1) depth start

/-- Model of `split_json_objects` (parser.rs 59–91).  The Rust signature is
`Result<Vec<&str>, ActivityError>` but no code path constructs an
`Err`, so the embedding returns the object list directly (under
`PRes`, since the byte slicing can panic). -/
def split_json_objects (content : List Char) : PRes (List (List Char)) :=
  splitLoop content content 0 0 0

/-! The record assembler (parser.rs 94–177). -/

def pushT : List Char := "PushEvent".toList
def issuesT : List Char := "IssuesEvent".toList
def prT : List Char := "PullRequestEvent".toList
def watchT : List Char := "WatchEvent".toList
def forkT : List Char := "ForkEvent".toList
def createT : List Char := "CreateEvent".toList
def deleteT : List Char := "DeleteEvent".toList
def releaseT : List Char := "ReleaseEvent".toList
def issueCommentT : List Char := "IssueCommentEvent".toList
def prReviewCommentT : List Char := "PullRequestReviewCommentEvent".toList
def commitCommentT : List Char := "CommitCommentEvent".toList

def typeKey : List Char := "type".toList
def repoKey : List Char := "repo".toList
def nameKey : List Char := "name".toList
def payloadKey : List Char := "payload".toList
def sizeKey : List Char := "size".toList
def actionKey : List Char := "action".toList
def refTypeKey : List Char := "ref_type".toList

/-- Model of `parse_payload` (parser.rs 118–177): dispatch on the `type`
discriminator; known types with payload data read the nested `payload`
object (`unwrap_or("")`) and fall back to the documented defaults;
every arm returns `Ok`, unknown discriminators give the catch-all
`Unknown`. -/
def parse_payload (json_obj event_type : List Char) :
    PRes (RustResult ActivityError EventPayload) :=
  if event_type = pushT then
    match extract_nested_object json_obj payloadKey with
    | PRes.panicked => PRes.panicked
    | PRes.ret po =>
      match extract_number_value (po.getD []) sizeKey with
      | PRes.panicked => PRes.panicked
      | PRes.ret n => PRes.ret (RustResult.Ok (EventPayload.Push (n.getD 1)))
  else if event_type = issuesT then
    match extract_nested_object json_obj payloadKey with
    | PRes.panicked => PRes.panicked
    | PRes.ret po =>
      PRes.ret (RustResult.Ok (EventPayload.IssuesEvent
        ((extract_string_value (po.getD []) actionKey).getD "unknown".toList)))
  else if event_type = prT then
    match extract_nested_object json_obj payloadKey with
    | PRes.panicked => PRes.panicked
    | PRes.ret po =>
      PRes.ret (RustResult.Ok (EventPayload.PullRequestEvent
        ((extract_string_value (po.getD []) actionKey).getD "unknown".toList)))
  else if event_type = watchT then PRes.ret (RustResult.Ok EventPayload.WatchEvent)
  else if event_type = forkT then PRes.ret (RustResult.Ok EventPayload.ForkEvent)
  else if event_type = createT then
    match extract_nested_object json_obj payloadKey with
    | PRes.panicked => PRes.panicked
    | PRes.ret po =>
      PRes.ret (RustResult.Ok (EventPayload.CreateEvent
        ((extract_string_value (po.getD []) refTypeKey).getD "unknown".toList)))
  else if event_type = deleteT then
    match extract_nested_object json_obj payloadKey with
    | PRes.panicked => PRes.panicked
    | PRes.ret po =>
      PRes.ret (RustResult.Ok (EventPayload.DeleteEvent
        ((extract_string_value (po.getD []) refTypeKey).getD "unknown".toList)))
  else if event_type = releaseT then
    match extract_nested_object json_obj payloadKey with
    | PRes.panicked => PRes.panicked
    | PRes.ret po =>
      PRes.ret (RustResult.Ok (EventPayload.ReleaseEvent
        ((extract_string_value (po.getD []) actionKey).getD "published".toList)))
  else if event_type = issueCommentT then PRes.ret (RustResult.Ok EventPayload.IssueCommentEvent)
  else if event_type = prReviewCommentT then
    PRes.ret (RustResult.Ok EventPayload.PullRequestReviewCommentEvent)
  else if event_type = commitCommentT then PRes.ret (RustResult.Ok EventPayload.CommitCommentEvent)
  else PRes.ret (RustResult.Ok EventPayload.Unknown)

/-- Model of `parse_event` (parser.rs 94–115): the required fields `type`,
`repo` and `repo.name` each turn a `None` into a `ParseError`; then
the payload is parsed and the record assembled. -/
def parse_event (json_obj : List Char) : PRes (RustResult ActivityError GitHubEvent) :=
  match extract_string_value json_obj typeKey with
  | none => PRes.ret (RustResult.Err (ActivityError.ParseError "Missing 'type' field"))
  | some event_type =>
    match extract_nested_object json_obj repoKey with
    | PRes.panicked => PRes.panicked
    | PRes.ret none => PRes.ret (RustResult.Err (ActivityError.ParseError "Missing 'repo' field"))
    | PRes.ret (some repo_obj) =>
      match extract_string_value repo_obj nameKey with
      | none => PRes.ret (RustResult.Err (ActivityError.ParseError "Missing 'repo.name' field"))
      | some repo_name =>
        match parse_payload json_obj event_type with
        | PRes.panicked => PRes.panicked
        | PRes.ret (RustResult.Err e) => PRes.ret (RustResult.Err e)
        | PRes.ret (RustResult.Ok payload) =>
          PRes.ret (RustResult.Ok ⟨event_type, repo_name, payload⟩)

/-- The `for obj in objects` loop of `parse_events` (parser.rs 44–52):
`Ok(event)` is pushed, `Err(_)` is skipped with `continue`. -/
def eventsLoop : List (List Char) → PRes (List GitHubEvent)
  | [] => PRes.ret []
  | obj :: rest =>
    match parse_event obj with
    | PRes.panicked => PRes.panicked
    | PRes.ret (RustResult.Ok ev) => pmap (fun l => ev :: l) (eventsLoop rest)
    | PRes.ret (RustResult.Err _) => eventsLoop rest

/-- Body of `parse_events` after the bracket validation (parser.rs
29–54): strip the brackets with the byte slice
`&trimmed[1..trimmed.len() - 1]` and trim again; empty content gives
`Ok(vec![])`; otherwise split into object spans and run the
per-object loop.  (Split from the bracket check purely to name this
continuation in proofs.) -/
def parse_events_rest (trimmed : List Char) : PRes (RustResult ActivityError (List GitHubEvent)) :=
  match byteSlice trimmed 1 (byteLenL trimmed - 1) with
  | none => PRes.panicked
  | some mid =>
    let content := rustTrim mid
    if content.isEmpty then PRes.ret (RustResult.Ok [])
    else
      match split_json_objects content with
      | PRes.panicked => PRes.panicked
      | PRes.ret objects => pmap RustResult.Ok (eventsLoop objects)

/-- Model of `parse_events` (parser.rs 12–55): trim; require `[` … `]`
(otherwise the only `Err` of the whole function); then continue with
`parse_events_rest`. -/
def parse_events (json_text : List Char) : PRes (RustResult ActivityError (List GitHubEvent)) :=
  let trimmed := rustTrim json_text
  if !(trimmed.head? == some '[') || !(trimmed.getLast? == some ']') then
    PRes.ret (RustResult.Err (ActivityError.ParseError "Expected JSON array"))
  else parse_events_rest trimmed

/-!  Specification-side definitions and helper lemmas. -/

/-- Position `j` of the character list `cs` holds an unescaped quote:
the character is `"` and the character immediately before it (which is
`prev` when `j = 0`, i.e. `(prev :: cs).get? j`) is not `\`. -/
def stopCond (prev : Char) (cs : List Char) (j : Nat) : Prop :=
  cs.get? j = some '"' ∧ (prev :: cs).get? j ≠ some '\\'

/-- Offset travelled by the `extract_string_value` scan loop: the
distance to the first unescaped quote, or the length of the list if
there is none. -/
def auxStop (prev : Char) : List Char → Nat
  | [] => 0
  | c :: cs => if c == '"' && prev != '\\' then 0 else auxStop c cs + 1

lemma scanClose_eq_auxStop (cs : List Char) : ∀ prev pos,
    scanClose prev pos cs = pos + auxStop prev cs := by
  induction cs with
  | nil => intro prev pos; simp [scanClose, auxStop]
  | cons c cs ih =>
    intro prev pos
    by_cases h : (c == '"' && prev != '\\') = true
    · simp [scanClose, auxStop, h]
    · simp only [scanClose, auxStop]
      rw [if_neg h, if_neg h, ih c (pos + 1)]
      omega

lemma auxStop_le (prev : Char) (cs : List Char) : auxStop prev cs ≤ cs.length := by
  induction cs generalizing prev with
  | nil => simp [auxStop]
  | cons c cs ih =>
    by_cases h : (c == '"' && prev != '\\') = true
    · simp [auxStop, h]
    · simp only [auxStop]
      rw [if_neg h]
      have := ih c
      simp only [List.length_cons]
      omega

lemma auxStop_not_stop (prev : Char) (cs : List Char) :
    ∀ j, j < auxStop prev cs → ¬ stopCond prev cs j := by
  induction cs generalizing prev with
  | nil => simp [auxStop]
  | cons c cs ih =>
    intro j hj
    by_cases h : (c == '"' && prev != '\\') = true
    · simp [auxStop, h] at hj
    · rw [auxStop, if_neg h] at hj
      match j with
      | 0 =>
        intro hst
        obtain ⟨h1, h2⟩ := hst
        simp only [List.get?] at h1 h2
        apply h
        simp only [Bool.and_eq_true, beq_iff_eq, bne_iff_ne]
        exact ⟨by injection h1, fun he => h2 (by rw [he])⟩
      | j + 1 =>
        intro hst
        obtain ⟨h1, h2⟩ := hst
        exact ih c j (by omega) ⟨h1, h2⟩

lemma auxStop_stop_or_len (prev : Char) (cs : List Char) :
    auxStop prev cs = cs.length ∨ stopCond prev cs (auxStop prev cs) := by
  induction cs generalizing prev with
  | nil => left; simp [auxStop]
  | cons c cs ih =>
    by_cases h : (c == '"' && prev != '\\') = true
    · right
      have h' := h
      simp only [Bool.and_eq_true, beq_iff_eq, bne_iff_ne] at h'
      have hz : auxStop prev (c :: cs) = 0 := by simp [auxStop, h]
      rw [hz]
      refine ⟨?_, ?_⟩
      · simp [List.get?, h'.1]
      · simp only [List.get?]
        intro hc
        exact h'.2 (by injection hc)
    · rcases ih c with h1 | h1
      · left
        rw [auxStop, if_neg h, h1, List.length_cons]
      · right
        obtain ⟨ha, hb⟩ := h1
        rw [auxStop, if_neg h]
        exact ⟨ha, hb⟩

lemma stopCond_lt_length {prev : Char} {cs : List Char} {j : Nat}
    (h : stopCond prev cs j) : j < cs.length := by
  obtain ⟨h1, _⟩ := h
  exact List.get?_eq_some.mp h1 |>.1

/-- Characterization of the found-and-quoted case of
`extract_string_value`: the value is everything up to the scan
offset. -/
lemma extract_string_value_eq {json key rest : List Char} {tl : List Char}
    (hF : findAfter json (mkPattern key) = some rest)
    (hT : rustTrimStart rest = '"' :: tl) :
    extract_string_value json key = some (tl.take (auxStop '"' tl)) := by
  simp [extract_string_value, hF, hT, scanClose_eq_auxStop]

/-!  The `collect` characterization of the per-object loop. -/

/-- Records produced from a list of object spans: one record per span
whose `parse_event` returns `Ok`, in order; spans whose `parse_event`
returns `Err` (or panics) contribute nothing. -/
def collect (objs : List (List Char)) : List GitHubEvent :=
  objs.filterMap (fun o =>
    match parse_event o with
    | PRes.ret (RustResult.Ok ev) => some ev
    | _ => none)

lemma eventsLoop_eq_collect (objs : List (List Char)) :
    eventsLoop objs = PRes.panicked ∨ eventsLoop objs = PRes.ret (collect objs) := by
  induction objs with
  | nil => right; simp [eventsLoop, collect]
  | cons o rest ih =>
    cases hpe : parse_event o with
    | panicked => left; simp [eventsLoop, hpe]
    | ret r =>
      cases r with
      | Ok ev =>
        rcases ih with h | h
        · left; simp [eventsLoop, hpe, h, pmap]
        · right; simp [eventsLoop, hpe, h, pmap, collect, List.filterMap_cons]
      | Err e =>
        rcases ih with h | h
        · left; simp [eventsLoop, hpe, h]
        · right; simp [eventsLoop, hpe, h, collect, List.filterMap_cons]

lemma collect_eraseIdx :
    ∀ (objs : List (List Char)) (k : Nat) (obj : List Char) (e : ActivityError),
      objs.get? k = some obj →
      parse_event obj = PRes.ret (RustResult.Err e) →
      collect objs = collect (objs.eraseIdx k) := by
  intro objs
  induction objs with
  | nil => intro k obj e hk; simp [List.get?] at hk
  | cons o rest ih =>
    intro k obj e hk he
    match k with
    | 0 =>
      simp only [List.get?] at hk
      injection hk with hk
      subst hk
      simp [collect, List.filterMap_cons, he, List.eraseIdx]
    | k + 1 =>
      simp only [List.get?] at hk
      have := ih k obj e hk he
      simp only [List.eraseIdx, collect, List.filterMap_cons]
      cases hpe : parse_event o with
      | panicked => simpa [collect] using this
      | ret r =>
        cases r with
        | Ok ev => simp only [collect] at this; rw [this]
        | Err e2 => simpa [collect] using this

/-!  Character-level specification of the number extractor. -/

/-- Character-level description of `extract_number_value` (the amended
claim C7): take the maximal leading run of `is_numeric` characters
after the colon and whitespace; an empty run is "not found", otherwise
the run is handed to `parse::<usize>` whose failure is also "not
found". -/
def numSpec (json key : List Char) : Option Nat :=
  match findAfter json (mkPattern key) with
  | none => none
  | some rest =>
    let run := (rustTrimStart rest).takeWhile rustIsNumeric
    if run.isEmpty then none else parseUsize run

lemma one_le_utf8Size (c : Char) : 1 ≤ c.utf8Size := by
  have := Char.utf8Size_pos c
  omega

lemma byteLenL_cons (c : Char) (cs : List Char) :
    byteLenL (c :: cs) = c.utf8Size + byteLenL cs := by
  simp [byteLenL]

lemma byteLenL_eq_zero {cs : List Char} (h : byteLenL cs = 0) : cs = [] := by
  cases cs with
  | nil => rfl
  | cons c cs =>
    rw [byteLenL_cons] at h
    have := one_le_utf8Size c
    omega

lemma byteTake_cons_of_pos (c : Char) (cs : List Char) (n : Nat) (h : 1 ≤ n) :
    byteTake (c :: cs) n =
      if c.utf8Size ≤ n then (byteTake cs (n - c.utf8Size)).map (fun t => c :: t)
      else none := by
  match n, h with
  | n + 1, _ => rfl

/-- Taking exactly the byte length of a prefix gives back that prefix:
such a byte index is always on a character boundary. -/
lemma byteTake_prefix : ∀ (pre suf : List Char),
    byteTake (pre ++ suf) (byteLenL pre) = some pre := by
  intro pre
  induction pre with
  | nil => intro suf; simp [byteLenL, byteTake]
  | cons c pre ih =>
    intro suf
    have h1 := one_le_utf8Size c
    rw [List.cons_append, byteLenL_cons,
      byteTake_cons_of_pos _ _ _ (by omega), if_pos (by omega)]
    have h2 : c.utf8Size + byteLenL pre - c.utf8Size = byteLenL pre := by omega
    rw [h2, ih suf]
    rfl

lemma numEndPos_eq (cs : List Char) :
    numEndPos cs = byteLenL (cs.takeWhile rustIsNumeric) := by
  induction cs with
  | nil => simp [numEndPos, byteLenL]
  | cons c cs ih =>
    by_cases h : rustIsNumeric c = true
    · simp [numEndPos, h, List.takeWhile_cons, byteLenL_cons, ih]
    · simp [numEndPos, h, List.takeWhile_cons, byteLenL]

/-!  The known discriminator set of `parse_payload`. -/

/-- The discriminator strings `parse_payload` matches on; everything
else falls to the catch-all arm. -/
def knownEventTypes : List (List Char) :=
  [pushT, issuesT, prT, watchT, forkT, createT, deleteT, releaseT,
   issueCommentT, prReviewCommentT, commitCommentT]

lemma parse_payload_unknown (json_obj et : List Char) (h : et ∉ knownEventTypes) :
    parse_payload json_obj et = PRes.ret (RustResult.Ok EventPayload.Unknown) := by
  simp only [knownEventTypes, List.mem_cons, List.not_mem_nil, or_false, not_or] at h
  obtain ⟨h1, h2, h3, h4, h5, h6, h7, h8, h9, h10, h11⟩ := h
  simp [parse_payload, h1, h2, h3, h4, h5, h6, h7, h8, h9, h10, h11]

lemma byteTake_takeWhile (p : Char → Bool) (cs : List Char) :
    byteTake cs (byteLenL (cs.takeWhile p)) = some (cs.takeWhile p) := by
  have h := byteTake_prefix (cs.takeWhile p) (cs.dropWhile p)
  rwa [List.takeWhile_append_dropWhile] at h

lemma extract_number_value_eq_numSpec (json key : List Char) :
    extract_number_value json key = PRes.ret (numSpec json key) := by
  unfold extract_number_value numSpec
  cases hF : findAfter json (mkPattern key) with
  | none => rfl
  | some rest =>
    simp only [numEndPos_eq]
    by_cases h0 : ((rustTrimStart rest).takeWhile rustIsNumeric) = []
    · simp [h0, byteLenL]
    · have hnz : ¬ (byteLenL ((rustTrimStart rest).takeWhile rustIsNumeric) = 0) :=
        fun hz => h0 (byteLenL_eq_zero hz)
      have hie : ((rustTrimStart rest).takeWhile rustIsNumeric).isEmpty = false := by
        cases hc : (rustTrimStart rest).takeWhile rustIsNumeric with
        | nil => exact absurd hc h0
        | cons a l => simp
      rw [if_neg hnz, byteTake_takeWhile, hie]
      simp

instance (prev : Char) (cs : List Char) (j : Nat) : Decidable (stopCond prev cs j) := by
  unfold stopCond
  infer_instance

/-!  Concrete object spans used to exhibit first-occurrence matching
(claim C9): in each, the literal pattern `"<key>":` occurs inside an
earlier nested object before the top-level field of the same name. -/

def shadowObjString : List Char :=
  "\x7b\"payload\":\x7b\"name\":\"inner\"\x7d,\"name\":\"outer\"\x7d".toList

def shadowObjNumber : List Char :=
  "\x7b\"inner\":\x7b\"size\":5\x7d,\"size\":9\x7d".toList

def shadowObjNested : List Char :=
  "\x7b\"a\":\x7b\"repo\":\x7b\"name\":\"i\"\x7d\x7d,\"repo\":\x7b\"name\":\"o\"\x7d\x7d".toList

/-!  Claim theorems C4, C5, C6, C7, C9, C10. -/

/-- C4: for every object span and key, the string-field extractor
collects characters until the first quote whose immediately preceding
character is not a backslash, and returns the collected characters
verbatim (no escape translation).  `k` is characterized as the first
position of `tl` (the text after the opening quote) holding an
unescaped quote, or the whole length if there is none. -/
theorem string_extractor_first_unescaped_quote :
    ∀ (json key rest tl : List Char) (k : Nat),
      findAfter json (mkPattern key) = some rest →
      rustTrimStart rest = '"' :: tl →
      k ≤ tl.length →
      (∀ j, j < k → ¬ stopCond '"' tl j) →
      (k = tl.length ∨ stopCond '"' tl k) →
      extract_string_value json key = some (tl.take k) := by
  intro json key rest tl k hF hT hk hns hs
  rw [extract_string_value_eq hF hT]
  have h1 := auxStop_le '"' tl
  have h2 := auxStop_not_stop '"' tl
  have h3 := auxStop_stop_or_len '"' tl
  have heq : auxStop '"' tl = k := by
    rcases Nat.lt_trichotomy k (auxStop '"' tl) with h | h | h
    · rcases hs with he | hst
      · omega
      · exact absurd hst (h2 k h)
    · omega
    · rcases h3 with he | hst
      · omega
      · exact absurd hst (hns _ h)
  rw [heq]

/-- Object span whose `msg` value embeds escaped quotes: the value text
is `say \"hi\"`. -/
def escObj : List Char := "\x7b\"msg\":\"say \\\"hi\\\"\"\x7d".toList

theorem string_extractor_first_unescaped_quote_witness :
    extract_string_value escObj ("msg".toList) = some ("say \\\"hi\\\"".toList) :=
  string_extractor_first_unescaped_quote escObj ("msg".toList)
    ("\"say \\\"hi\\\"\"\x7d".toList) ("say \\\"hi\\\"\"\x7d".toList) 10
    (by decide) (by decide) (by decide) (by decide) (Or.inr (by decide))

/-- C10: when the key is found and the value starts with a quote but no
unescaped closing quote follows before the end of the span, the
extractor returns `some` of all remaining characters after the opening
quote, not `none`. -/
theorem string_extractor_unterminated_rest :
    ∀ (json key rest tl : List Char),
      findAfter json (mkPattern key) = some rest →
      rustTrimStart rest = '"' :: tl →
      (∀ j, j < tl.length → ¬ stopCond '"' tl j) →
      extract_string_value json key = some tl := by
  intro json key rest tl hF hT hns
  rw [extract_string_value_eq hF hT]
  have h3 := auxStop_stop_or_len '"' tl
  have hlen : auxStop '"' tl = tl.length := by
    rcases h3 with he | hst
    · exact he
    · exact absurd hst (hns _ (stopCond_lt_length hst))
  rw [hlen, List.take_length]

theorem string_extractor_unterminated_rest_witness :
    extract_string_value ("\x7b\"a\":\"abc".toList) ("a".toList) = some ("abc".toList) :=
  string_extractor_unterminated_rest ("\x7b\"a\":\"abc".toList) ("a".toList)
    ("\"abc".toList) ("abc".toList) (by decide) (by decide) (by decide)

/-- C9: all three key-locating extractors depend only on the suffix
after the *first* occurrence of the literal pattern `"<key>":` (first
conjunct), and on concrete spans where that first occurrence lies
inside an earlier nested object, each extractor returns the value at
that nested occurrence rather than the top-level field's value
(remaining conjuncts). -/
theorem extractors_first_occurrence :
    (∀ (key json1 json2 : List Char),
        findAfter json1 (mkPattern key) = findAfter json2 (mkPattern key) →
        extract_string_value json1 key = extract_string_value json2 key ∧
        extract_number_value json1 key = extract_number_value json2 key ∧
        extract_nested_object json1 key = extract_nested_object json2 key) ∧
    (extract_string_value shadowObjString nameKey = some ("inner".toList) ∧
      extract_string_value shadowObjString nameKey ≠ some ("outer".toList)) ∧
    (extract_number_value shadowObjNumber sizeKey = PRes.ret (some 5) ∧
      extract_number_value shadowObjNumber sizeKey ≠ PRes.ret (some 9)) ∧
    (extract_nested_object shadowObjNested repoKey =
        PRes.ret (some ("\x7b\"name\":\"i\"\x7d".toList)) ∧
      extract_nested_object shadowObjNested repoKey ≠
        PRes.ret (some ("\x7b\"name\":\"o\"\x7d".toList))) := by
  refine ⟨?_, by decide, by decide, by decide⟩
  intro key json1 json2 h
  refine ⟨?_, ?_, ?_⟩
  · unfold extract_string_value
    rw [h]
  · unfold extract_number_value
    rw [h]
  · unfold extract_nested_object
    rw [h]

theorem extractors_first_occurrence_witness :
    extract_string_value ("a\"k\":1".toList) ("k".toList) =
        extract_string_value ("bb\"k\":1".toList) ("k".toList) ∧
    extract_number_value ("a\"k\":1".toList) ("k".toList) =
        extract_number_value ("bb\"k\":1".toList) ("k".toList) ∧
    extract_nested_object ("a\"k\":1".toList) ("k".toList) =
        extract_nested_object ("bb\"k\":1".toList) ("k".toList) :=
  extractors_first_occurrence.1 ("k".toList) ("a\"k\":1".toList) ("bb\"k\":1".toList)
    (by decide)

/-- C5: an object span whose `type` discriminator is outside the known
set but which has `repo.name` is assembled into a record with the
catch-all `Unknown` payload, retaining the literal discriminator
string; `parse_event` returns `Ok`, never an error, for such a span. -/
theorem unknown_discriminator_catch_all :
    ∀ (obj et ro rn : List Char),
      extract_string_value obj typeKey = some et →
      et ∉ knownEventTypes →
      extract_nested_object obj repoKey = PRes.ret (some ro) →
      extract_string_value ro nameKey = some rn →
      parse_event obj = PRes.ret (RustResult.Ok ⟨et, rn, EventPayload.Unknown⟩) := by
  intro obj et ro rn hT hU hR hN
  simp only [parse_event, hT, hR, hN, parse_payload_unknown obj et hU]

/-- Object span with the unknown discriminator `GollumEvent`. -/
def gollumObj : List Char :=
  "\x7b\"type\":\"GollumEvent\",\"repo\":\x7b\"name\":\"a/b\"\x7d\x7d".toList

theorem unknown_discriminator_catch_all_witness :
    parse_event gollumObj =
      PRes.ret (RustResult.Ok ⟨"GollumEvent".toList, "a/b".toList, EventPayload.Unknown⟩) :=
  unknown_discriminator_catch_all gollumObj ("GollumEvent".toList)
    ("\x7b\"name\":\"a/b\"\x7d".toList) ("a/b".toList)
    (by decide) (by decide) (by decide) (by decide)

/-- C6: for known discriminators with a missing optional payload
sub-field, the assembler uses the documented default instead of
failing: commit count 1 for `PushEvent`; action `unknown` for
`IssuesEvent` and `PullRequestEvent` and `published` for
`ReleaseEvent`; ref_type `unknown` for `CreateEvent` and
`DeleteEvent`. -/
theorem payload_defaults :
    ∀ (obj : List Char) (po : Option (List Char)),
      extract_nested_object obj payloadKey = PRes.ret po →
      (extract_number_value (po.getD []) sizeKey = PRes.ret none →
        parse_payload obj pushT = PRes.ret (RustResult.Ok (EventPayload.Push 1))) ∧
      (extract_string_value (po.getD []) actionKey = none →
        parse_payload obj issuesT =
            PRes.ret (RustResult.Ok (EventPayload.IssuesEvent ("unknown".toList))) ∧
          parse_payload obj prT =
            PRes.ret (RustResult.Ok (EventPayload.PullRequestEvent ("unknown".toList))) ∧
          parse_payload obj releaseT =
            PRes.ret (RustResult.Ok (EventPayload.ReleaseEvent ("published".toList)))) ∧
      (extract_string_value (po.getD []) refTypeKey = none →
        parse_payload obj createT =
            PRes.ret (RustResult.Ok (EventPayload.CreateEvent ("unknown".toList))) ∧
          parse_payload obj deleteT =
            PRes.ret (RustResult.Ok (EventPayload.DeleteEvent ("unknown".toList)))) := by
  intro obj po hpo
  refine ⟨fun h => ?_, fun h => ⟨?_, ?_, ?_⟩, fun h => ⟨?_, ?_⟩⟩
  · simp only [parse_payload]
    rw [if_pos trivial, hpo]
    simp [h]
  · simp only [parse_payload]
    rw [if_neg (by decide), if_pos trivial, hpo]
    simp [h]
  · simp only [parse_payload]
    rw [if_neg (by decide), if_neg (by decide), if_pos trivial, hpo]
    simp [h]
  · simp only [parse_payload]
    rw [if_neg (by decide), if_neg (by decide), if_neg (by decide), if_neg (by decide),
      if_neg (by decide), if_neg (by decide), if_neg (by decide), if_pos trivial, hpo]
    simp [h]
  · simp only [parse_payload]
    rw [if_neg (by decide), if_neg (by decide), if_neg (by decide), if_neg (by decide),
      if_neg (by decide), if_pos trivial, hpo]
    simp [h]
  · simp only [parse_payload]
    rw [if_neg (by decide), if_neg (by decide), if_neg (by decide), if_neg (by decide),
      if_neg (by decide), if_neg (by decide), if_pos trivial, hpo]
    simp [h]

/-- Object span of the claim's end-to-end example: a `PushEvent` with
no `payload` object at all. -/
def pushNoPayloadObj : List Char :=
  "\x7b\"type\":\"PushEvent\",\"repo\":\x7b\"name\":\"a/b\"\x7d\x7d".toList

theorem payload_defaults_witness :
    parse_payload pushNoPayloadObj pushT = PRes.ret (RustResult.Ok (EventPayload.Push 1)) ∧
    parse_events ("[\x7b\"type\":\"PushEvent\",\"repo\":\x7b\"name\":\"a/b\"\x7d\x7d]".toList) =
      PRes.ret (RustResult.Ok [⟨"PushEvent".toList, "a/b".toList, EventPayload.Push 1⟩]) :=
  ⟨(payload_defaults pushNoPayloadObj none (by decide)).1 (by decide), by decide⟩

/-- C7 (amended): the unsigned-integer extractor collects the maximal
run of *Unicode-numeric* characters (Rust `char::is_numeric`, not only
ASCII digits), measured in UTF-8 bytes; an empty run is "not found",
and a failing `parse::<usize>` (non-ASCII numeric characters, or a
value past `usize::MAX`) is also "not found" rather than an error.
The byte index it slices with is always on a character boundary, so it
never panics. -/
theorem number_extractor_numeric_run_amended :
    ∀ json key : List Char, extract_number_value json key = PRes.ret (numSpec json key) :=
  extract_number_value_eq_numSpec

/-- Counterexample to C7 as stated: after `"size":` the character run
`3٣` (an ASCII digit followed by the Arabic-Indic digit `٣`, which is
Unicode-numeric but not ASCII) has maximal ASCII-digit run `3`, which
parses to `3` — so the claim predicts `some 3` — but the code collects
the whole Unicode-numeric run, whose parse fails, and returns `none`. -/
theorem number_extractor_ascii_claim_counterexample :
    rustIsNumeric '٣' = true ∧
    (rustTrimStart ("3٣".toList)).takeWhile Char.isDigit = ['3'] ∧
    parseUsize ['3'] = some 3 ∧
    extract_number_value ("\"size\":3٣".toList) sizeKey = PRes.ret none := by
  refine ⟨by decide, by decide, by decide, by decide⟩

/-!  Brace balance (claim C8): spec-side definitions. -/

/-- Contribution of one character to the brace depth. -/
def braceDelta (c : Char) : Int :=
  if c = '\x7b' then 1 else if c = '\x7d' then -1 else 0

/-- Net brace depth of a character list. -/
def braceSum (cs : List Char) : Int :=
  (cs.map braceDelta).sum

/-- Running check from depth `d`: after every character the running
brace depth stays nonnegative (no prefix closes more braces than were
opened), and the final depth is 0 (equally many opening and closing
braces). -/
def prefCheck : Int → List Char → Bool
  | d, [] => d == 0
  | d, c :: cs => if 0 ≤ d + braceDelta c then prefCheck (d + braceDelta c) cs else false

/-- A brace-balanced span in the sense of claim C8: begins with `{`,
ends with `}`, has equally many opening and closing braces, and no
prefix closes more braces than it opened. -/
def balancedB (s : List Char) : Bool :=
  s.head? == some '\x7b' && s.getLast? == some '\x7d' && prefCheck 0 s

/-- Every character is a single UTF-8 byte; on such text, character
indices and byte indices coincide. -/
def allASCII (cs : List Char) : Bool :=
  cs.all (fun c => c.utf8Size == 1)

/-- The character segment `[a, b)` of a list. -/
def seg (cs : List Char) (a b : Nat) : List Char :=
  (cs.drop a).take (b - a)

/-!  Byte slicing on ASCII text is character slicing. -/

lemma allASCII_subset {l l' : List Char} (hsub : l' ⊆ l) (h : allASCII l = true) :
    allASCII l' = true := by
  rw [allASCII, List.all_eq_true] at *
  exact fun x hx => h x (hsub hx)

lemma byteLenL_ascii {cs : List Char} (h : allASCII cs = true) : byteLenL cs = cs.length := by
  induction cs with
  | nil => simp [byteLenL]
  | cons c cs ih =>
    rw [allASCII, List.all_eq_true] at h
    have hc : c.utf8Size = 1 := by simpa using h c (by simp)
    have ht : allASCII cs = true := by
      rw [allASCII, List.all_eq_true]
      exact fun x hx => h x (List.mem_cons_self c cs |> fun _ => List.mem_cons_of_mem c hx)
    rw [byteLenL_cons, hc, ih ht, List.length_cons]
    omega

lemma byteTake_ascii : ∀ (cs : List Char) (n : Nat), allASCII cs = true →
    byteTake cs n = if n ≤ cs.length then some (cs.take n) else none := by
  intro cs
  induction cs with
  | nil =>
    intro n _
    match n with
    | 0 => simp [byteTake]
    | n + 1 => simp [byteTake]
  | cons c cs ih =>
    intro n h
    have hc : c.utf8Size = 1 := by
      rw [allASCII, List.all_eq_true] at h
      simpa using h c (by simp)
    have ht : allASCII cs = true :=
      allASCII_subset (by intro x hx; exact List.mem_cons_of_mem c hx) h
    match n with
    | 0 => simp [byteTake]
    | n + 1 =>
      rw [byteTake_cons_of_pos _ _ _ (by omega), hc, if_pos (by omega),
        Nat.add_sub_cancel, ih n ht]
      by_cases hle : n ≤ cs.length
      · rw [if_pos hle, if_pos (by simp; omega)]
        rfl
      · rw [if_neg hle, if_neg (by simp; omega)]
        rfl

lemma byteDrop_ascii : ∀ (cs : List Char) (n : Nat), allASCII cs = true →
    byteDrop cs n = if n ≤ cs.length then some (cs.drop n) else none := by
  intro cs
  induction cs with
  | nil =>
    intro n _
    match n with
    | 0 => simp [byteDrop]
    | n + 1 => simp [byteDrop]
  | cons c cs ih =>
    intro n h
    have hc : c.utf8Size = 1 := by
      rw [allASCII, List.all_eq_true] at h
      simpa using h c (by simp)
    have ht : allASCII cs = true :=
      allASCII_subset (by intro x hx; exact List.mem_cons_of_mem c hx) h
    match n with
    | 0 => simp [byteDrop]
    | n + 1 =>
      have hstep : byteDrop (c :: cs) (n + 1) = byteDrop cs (n + 1 - c.utf8Size) := by
        rw [byteDrop, if_pos (by omega)]
      rw [hstep, hc, Nat.add_sub_cancel, ih n ht]
      by_cases hle : n ≤ cs.length
      · rw [if_pos hle, if_pos (by simp; omega)]
        rfl
      · rw [if_neg hle, if_neg (by simp; omega)]

lemma byteSlice_ascii {cs : List Char} {a b : Nat} (h : allASCII cs = true)
    (hab : a ≤ b) (hb : b ≤ cs.length) :
    byteSlice cs a b = some (seg cs a b) := by
  rw [byteSlice, if_pos hab, byteTake_ascii cs b h, if_pos hb]
  have htsub : allASCII (cs.take b) = true := allASCII_subset (List.take_subset b cs) h
  rw [Option.some_bind, byteDrop_ascii _ a htsub,
    if_pos (by rw [List.length_take]; omega)]
  rw [seg, List.drop_take]

/-!  Small structural lemmas about segments. -/

lemma drop_cons_facts {cs rem : List Char} {c : Char} {i : Nat}
    (h : cs.drop i = c :: rem) :
    cs.get? i = some c ∧ cs.drop (i + 1) = rem ∧ i < cs.length := by
  refine ⟨?_, ?_, ?_⟩
  · rw [List.get?_eq_getElem?]
    have := List.getElem?_drop cs i 0
    rw [h] at this
    simpa using this.symm
  · have : List.drop 1 (List.drop i cs) = List.drop (i + 1) cs := List.drop_drop 1 i cs
    rw [← this, h]
    rfl
  · by_contra hlen
    have : cs.drop i = [] := List.drop_eq_nil_iff.mpr (by omega)
    rw [this] at h
    exact List.noConfusion h

lemma braceSum_append (xs : List Char) (c : Char) :
    braceSum (xs ++ [c]) = braceSum xs + braceDelta c := by
  simp [braceSum, List.map_append, List.sum_append]

lemma seg_self (cs : List Char) (a : Nat) : seg cs a a = [] := by
  simp [seg]

lemma seg_snoc {cs : List Char} {a i : Nat} {c : Char}
    (ha : a ≤ i) (hgi : cs.get? i = some c) :
    seg cs a (i + 1) = seg cs a i ++ [c] := by
  rw [seg, seg]
  have h1 : i + 1 - a = (i - a) + 1 := by omega
  rw [h1, List.take_succ]
  have h2 : (cs.drop a)[i - a]? = some c := by
    rw [List.getElem?_drop]
    have h3 : a + (i - a) = i := by omega
    rw [h3, ← List.get?_eq_getElem?]
    exact hgi
  rw [h2]
  rfl

lemma seg_length {cs : List Char} {a b : Nat} (hab : a ≤ b) (hb : b ≤ cs.length) :
    (seg cs a b).length = b - a := by
  rw [seg, List.length_take, List.length_drop]
  omega

lemma head?_take_of_pos {α : Type} {l : List α} {n : Nat} (h : 1 ≤ n) :
    (l.take n).head? = l.head? := by
  cases l with
  | nil => simp
  | cons a t =>
    match n, h with
    | n + 1, _ => simp

lemma seg_head? {cs : List Char} {a b : Nat} (hab : a < b) :
    (seg cs a b).head? = cs.get? a := by
  rw [seg, head?_take_of_pos (by omega), List.head?_eq_getElem?, List.getElem?_drop,
    Nat.add_zero, List.get?_eq_getElem?]

lemma braceSum_nil : braceSum [] = 0 := rfl

lemma braceSum_cons (c : Char) (cs : List Char) :
    braceSum (c :: cs) = braceDelta c + braceSum cs := by
  simp [braceSum]

lemma prefCheck_iff : ∀ (s : List Char) (d : Int),
    prefCheck d s = true ↔
      ((∀ n, 1 ≤ n → n ≤ s.length → 0 ≤ d + braceSum (s.take n)) ∧ d + braceSum s = 0) := by
  intro s
  induction s with
  | nil =>
    intro d
    rw [prefCheck]
    simp only [List.length_nil, braceSum_nil, beq_iff_eq]
    constructor
    · intro h
      refine ⟨fun n hn1 hn2 => ?_, by omega⟩
      have : False := by omega
      exact this.elim
    · rintro ⟨h1, h2⟩
      omega
  | cons c cs ih =>
    intro d
    by_cases h : 0 ≤ d + braceDelta c
    · rw [prefCheck, if_pos h, ih (d + braceDelta c)]
      constructor
      · rintro ⟨h1, h2⟩
        refine ⟨?_, by rw [braceSum_cons]; omega⟩
        intro n hn1 hn2
        match n, hn1 with
        | 1, _ =>
          rw [List.take_succ_cons, List.take_zero, braceSum_cons, braceSum_nil]
          omega
        | m + 2, _ =>
          simp only [List.length_cons] at hn2
          have h3 := h1 (m + 1) (by omega) (by omega)
          rw [List.take_succ_cons, braceSum_cons]
          omega
      · rintro ⟨h1, h2⟩
        refine ⟨?_, by rw [braceSum_cons] at h2; omega⟩
        intro m hm1 hm2
        have h3 := h1 (m + 1) (by omega) (by simp only [List.length_cons]; omega)
        rw [List.take_succ_cons, braceSum_cons] at h3
        omega
    · rw [prefCheck, if_neg h]
      constructor
      · intro hx
        simp at hx
      · rintro ⟨h1, h2⟩
        have h3 := h1 1 (by omega) (by simp only [List.length_cons]; omega)
        rw [List.take_succ_cons, List.take_zero, braceSum_cons, braceSum_nil] at h3
        omega

lemma dropWhile_cons_of_neg {p : Char → Bool} {c : Char} {cs : List Char}
    (h : p c = false) : List.dropWhile p (c :: cs) = c :: cs := by
  simp [List.dropWhile, h]

/-- A span that starts with `{` and ends with `}` is untouched by
`.trim()`. -/
lemma rustTrim_eq_self {s : List Char} (h1 : s.head? = some '\x7b')
    (h2 : s.getLast? = some '\x7d') : rustTrim s = s := by
  have hw1 : rustIsWhitespace '\x7b' = false := by decide
  have hw2 : rustIsWhitespace '\x7d' = false := by decide
  cases s with
  | nil => simp at h1
  | cons c cs =>
    rw [List.head?_cons] at h1
    injection h1 with h1
    subst h1
    rw [rustTrim, rustTrimStart, dropWhile_cons_of_neg hw1, rustTrimEnd]
    have hhr : ('\x7b' :: cs).reverse.head? = some '\x7d' := by
      rw [List.head?_reverse]
      exact h2
    cases hr : ('\x7b' :: cs).reverse with
    | nil =>
      rw [hr] at hhr
      simp at hhr
    | cons d ds =>
      rw [hr] at hhr
      rw [List.head?_cons] at hhr
      injection hhr with hd
      subst hd
      rw [dropWhile_cons_of_neg hw2, ← hr, List.reverse_reverse]

/-- The suffix returned by `findAfter` is a `drop` of the searched
text. -/
lemma findAfter_drop : ∀ (cs pat rest : List Char),
    findAfter cs pat = some rest → ∃ k, rest = cs.drop k := by
  intro cs
  induction cs with
  | nil =>
    intro pat rest h
    rw [findAfter] at h
    by_cases hp : pat.isEmpty = true
    · rw [if_pos hp] at h
      injection h with h
      exact ⟨0, h.symm⟩
    · rw [if_neg hp] at h
      exact absurd h (by simp)
  | cons c cs ih =>
    intro pat rest h
    rw [findAfter] at h
    by_cases hp : pat.isPrefixOf (c :: cs) = true
    · rw [if_pos hp] at h
      injection h with h
      exact ⟨pat.length, h.symm⟩
    · rw [if_neg hp] at h
      obtain ⟨k, hk⟩ := ih pat rest h
      exact ⟨k + 1, by rw [hk]; rfl⟩

/-- Invariant-carrying induction over the splitter loop: on ASCII
content, every span it emits is brace-balanced.  The invariant says
that while the depth is positive, `start` marks a `{` strictly before
`i`, the segment from `start` to `i` sums to the current depth, and
every nonempty prefix of that segment keeps the depth at least 1. -/
lemma splitLoop_balanced :
    ∀ (rem content : List Char) (i : Nat) (depth : Int) (start : Nat),
      allASCII content = true →
      rem = content.drop i →
      (1 ≤ depth →
        start < i ∧ content.get? start = some '\x7b' ∧
        braceSum (seg content start i) = depth ∧
        (∀ j, start < j → j ≤ i → 1 ≤ braceSum (seg content start j))) →
      ∀ spans, splitLoop content rem i depth start = PRes.ret spans →
        ∀ x, x ∈ spans → balancedB x = true := by
  intro rem
  induction rem with
  | nil =>
    intro content i depth start hA hrem hinv spans hrun x hx
    rw [splitLoop] at hrun
    injection hrun with hrun
    rw [← hrun] at hx
    exact absurd hx (List.not_mem_nil x)
  | cons c cs ih =>
    intro content i depth start hA hrem hinv spans hrun x hx
    obtain ⟨hgi, hdrop, hlen⟩ := drop_cons_facts hrem.symm
    rw [splitLoop] at hrun
    by_cases hc1 : c = '\x7b'
    · rw [if_pos hc1] at hrun
      refine ih content (i + 1) (depth + 1) (if depth = 0 then i else start)
        hA hdrop.symm ?_ spans hrun x hx
      intro hd1
      by_cases hd0 : depth = 0
      · rw [if_pos hd0]
        rw [hc1] at hgi
        refine ⟨by omega, hgi, ?_, ?_⟩
        · rw [seg_snoc (le_refl i) hgi, seg_self, List.nil_append, braceSum_cons,
            braceSum_nil, hd0]
          decide
        · intro j hj1 hj2
          have hj : j = i + 1 := by omega
          rw [hj, seg_snoc (le_refl i) hgi, seg_self, List.nil_append, braceSum_cons,
            braceSum_nil]
          decide
      · have hd1' : 1 ≤ depth := by omega
        obtain ⟨hsi, hgs, hbs, hpref⟩ := hinv hd1'
        rw [if_neg hd0]
        rw [hc1] at hgi
        have hdel : braceDelta '\x7b' = 1 := by decide
        refine ⟨by omega, hgs, ?_, ?_⟩
        · rw [seg_snoc (by omega) hgi, braceSum_append, hbs, hdel]
        · intro j hj1 hj2
          by_cases hji : j ≤ i
          · exact hpref j hj1 hji
          · have hj : j = i + 1 := by omega
            rw [hj, seg_snoc (by omega) hgi, braceSum_append, hbs, hdel]
            omega
    · rw [if_neg hc1] at hrun
      by_cases hc2 : c = '\x7d'
      · rw [if_pos hc2] at hrun
        rw [hc2] at hgi
        have hdel : braceDelta '\x7d' = -1 := by decide
        by_cases hdz : depth - 1 = 0
        · rw [if_pos hdz] at hrun
          have hd1 : 1 ≤ depth := by omega
          obtain ⟨hsi, hgs, hbs, hpref⟩ := hinv hd1
          have hslice : byteSlice content start (i + 1) = some (seg content start (i + 1)) :=
            byteSlice_ascii hA (by omega) (by omega)
          rw [hslice] at hrun
          cases hrec : splitLoop content cs (i + 1) (depth - 1) start with
          | panicked =>
            rw [hrec] at hrun
            exact absurd hrun (by simp [pmap])
          | ret rest_spans =>
            rw [hrec] at hrun
            simp only [pmap] at hrun
            injection hrun with hrun
            rw [← hrun] at hx
            have hseg : seg content start (i + 1) = seg content start i ++ ['\x7d'] :=
              seg_snoc (by omega) hgi
            have hhead : (seg content start (i + 1)).head? = some '\x7b' := by
              rw [seg_head? (by omega)]
              exact hgs
            have hlast : (seg content start (i + 1)).getLast? = some '\x7d' := by
              rw [hseg]
              exact List.getLast?_concat _
            rcases List.mem_cons.mp hx with hx1 | hx2
            · have hpc : prefCheck 0 (seg content start (i + 1)) = true := by
                rw [prefCheck_iff]
                have hlen2 : (seg content start (i + 1)).length = i + 1 - start :=
                  seg_length (by omega) (by omega)
                refine ⟨?_, ?_⟩
                · intro n hn1 hn2
                  have htk : (seg content start (i + 1)).take n = seg content start (start + n) := by
                    rw [seg, seg, List.take_take]
                    congr 1
                    rw [hlen2] at hn2
                    omega
                  rw [htk]
                  by_cases hni : start + n ≤ i
                  · have := hpref (start + n) (by omega) hni
                    omega
                  · rw [hlen2] at hn2
                    have hni2 : start + n = i + 1 := by omega
                    rw [hni2, hseg, braceSum_append, hbs, hdel]
                    omega
                · rw [hseg, braceSum_append, hbs, hdel]
                  omega
              have hbal : balancedB (seg content start (i + 1)) = true := by
                rw [balancedB, hhead, hlast, hpc]
                decide
              rw [hx1, rustTrim_eq_self hhead hlast]
              exact hbal
            · refine ih content (i + 1) (depth - 1) start hA hdrop.symm ?_ rest_spans hrec x hx2
              intro h1
              rw [hdz] at h1
              exact absurd h1 (by decide)
        · rw [if_neg hdz] at hrun
          refine ih content (i + 1) (depth - 1) start hA hdrop.symm ?_ spans hrun x hx
          intro hd1
          have hd2 : 2 ≤ depth := by omega
          obtain ⟨hsi, hgs, hbs, hpref⟩ := hinv (by omega)
          refine ⟨by omega, hgs, ?_, ?_⟩
          · rw [seg_snoc (by omega) hgi, braceSum_append, hbs, hdel]
            omega
          · intro j hj1 hj2
            by_cases hji : j ≤ i
            · exact hpref j hj1 hji
            · have hj : j = i + 1 := by omega
              rw [hj, seg_snoc (by omega) hgi, braceSum_append, hbs, hdel]
              omega
      · rw [if_neg hc2] at hrun
        refine ih content (i + 1) depth start hA hdrop.symm ?_ spans hrun x hx
        intro hd1
        obtain ⟨hsi, hgs, hbs, hpref⟩ := hinv hd1
        have hdel : braceDelta c = 0 := by
          rw [braceDelta, if_neg hc1, if_neg hc2]
        refine ⟨by omega, hgs, ?_, ?_⟩
        · rw [seg_snoc (by omega) hgi, braceSum_append, hbs, hdel]
          omega
        · intro j hj1 hj2
          by_cases hji : j ≤ i
          · exact hpref j hj1 hji
          · have hj : j = i + 1 := by omega
            rw [hj, seg_snoc (by omega) hgi, braceSum_append, hbs, hdel]
            have := hpref i ?_ (le_refl i)
            · omega
            · omega

lemma take_snoc {cs : List Char} {i : Nat} {c : Char} (hgi : cs.get? i = some c) :
    cs.take (i + 1) = cs.take i ++ [c] := by
  rw [List.take_succ, ← List.get?_eq_getElem?, hgi]
  rfl

/-- Invariant-carrying induction over the brace-matching loop of
`extract_nested_object`: starting on a text whose first character is
`{`, if the loop reports `some e` then the first `e` characters form a
brace-balanced span. -/
lemma braceEndLoop_balanced :
    ∀ (rem ac : List Char) (i : Nat) (depth : Int),
      ac.head? = some '\x7b' →
      rem = ac.drop i →
      ((i = 0 ∧ depth = 0) ∨
        (1 ≤ i ∧ 1 ≤ depth ∧ braceSum (ac.take i) = depth ∧
          (∀ j, 1 ≤ j → j ≤ i → 1 ≤ braceSum (ac.take j)))) →
      ∀ e, braceEndLoop rem depth i = some e →
        e ≤ ac.length ∧ balancedB (ac.take e) = true := by
  intro rem
  induction rem with
  | nil =>
    intro ac i depth hhead hrem hinv e hrun
    rw [braceEndLoop] at hrun
    exact absurd hrun (by simp)
  | cons c cs ih =>
    intro ac i depth hhead hrem hinv e hrun
    obtain ⟨hgi, hdrop, hlen⟩ := drop_cons_facts hrem.symm
    rw [braceEndLoop] at hrun
    by_cases hc1 : c = '\x7b'
    · rw [if_pos hc1] at hrun
      refine ih ac (i + 1) (depth + 1) hhead hdrop.symm ?_ e hrun
      right
      rw [hc1] at hgi
      have hdel : braceDelta '\x7b' = 1 := by decide
      rcases hinv with ⟨hi0, hd0⟩ | ⟨hi1, hd1, hbs, hpref⟩
      · refine ⟨by omega, by omega, ?_, ?_⟩
        · rw [hi0] at hgi ⊢
          rw [take_snoc hgi, List.take_zero, List.nil_append, braceSum_cons,
            braceSum_nil, hd0, hdel]
          decide
        · intro j hj1 hj2
          have hj : j = 1 := by omega
          rw [hi0] at hgi
          rw [hj, take_snoc hgi, List.take_zero, List.nil_append, braceSum_cons,
            braceSum_nil, hdel]
          decide
      · refine ⟨by omega, by omega, ?_, ?_⟩
        · rw [take_snoc hgi, braceSum_append _ '\x7b', hbs, hdel]
        · intro j hj1 hj2
          by_cases hji : j ≤ i
          · exact hpref j hj1 hji
          · have hj : j = i + 1 := by omega
            rw [hj, take_snoc hgi, braceSum_append _ '\x7b', hbs, hdel]
            omega
    · rw [if_neg hc1] at hrun
      by_cases hc2 : c = '\x7d'
      · rw [if_pos hc2] at hrun
        rw [hc2] at hgi
        have hdel : braceDelta '\x7d' = -1 := by decide
        rcases hinv with ⟨hi0, hd0⟩ | ⟨hi1, hd1, hbs, hpref⟩
        · exfalso
          rw [hi0] at hgi
          rw [List.head?_eq_getElem?, ← List.get?_eq_getElem?, hgi] at hhead
          injection hhead with hhead
          exact absurd hhead (by decide)
        · by_cases hdz : depth - 1 = 0
          · rw [if_pos hdz] at hrun
            injection hrun with hrun
            rw [← hrun]
            refine ⟨by omega, ?_⟩
            have hseg : ac.take (i + 1) = ac.take i ++ ['\x7d'] := take_snoc hgi
            have hhd : (ac.take (i + 1)).head? = some '\x7b' := by
              rw [head?_take_of_pos (by omega)]
              exact hhead
            have hlast : (ac.take (i + 1)).getLast? = some '\x7d' := by
              rw [hseg]
              exact List.getLast?_concat _
            have hpc : prefCheck 0 (ac.take (i + 1)) = true := by
              rw [prefCheck_iff]
              have hlen2 : (ac.take (i + 1)).length = i + 1 := by
                rw [List.length_take]
                omega
              refine ⟨?_, ?_⟩
              · intro n hn1 hn2
                rw [hlen2] at hn2
                rw [List.take_take]
                have hmin : n ⊓ (i + 1) = n := by omega
                rw [hmin]
                by_cases hni : n ≤ i
                · have := hpref n (by omega) hni
                  omega
                · have hn : n = i + 1 := by omega
                  rw [hn, hseg, braceSum_append, hbs, hdel]
                  omega
              · rw [hseg, braceSum_append, hbs, hdel]
                omega
            rw [balancedB, hhd, hlast, hpc]
            decide
          · rw [if_neg hdz] at hrun
            refine ih ac (i + 1) (depth - 1) hhead hdrop.symm ?_ e hrun
            right
            refine ⟨by omega, by omega, ?_, ?_⟩
            · rw [take_snoc hgi, braceSum_append _ '\x7d', hbs, hdel]
              omega
            · intro j hj1 hj2
              by_cases hji : j ≤ i
              · exact hpref j hj1 hji
              · have hj : j = i + 1 := by omega
                rw [hj, take_snoc hgi, braceSum_append _ '\x7d', hbs, hdel]
                omega
      · rw [if_neg hc2] at hrun
        refine ih ac (i + 1) depth hhead hdrop.symm ?_ e hrun
        have hdel : braceDelta c = 0 := by
          rw [braceDelta, if_neg hc1, if_neg hc2]
        rcases hinv with ⟨hi0, hd0⟩ | ⟨hi1, hd1, hbs, hpref⟩
        · exfalso
          rw [hi0] at hgi
          rw [List.head?_eq_getElem?, ← List.get?_eq_getElem?, hgi] at hhead
          injection hhead with hhead
          exact hc1 hhead
        · right
          refine ⟨by omega, by omega, ?_, ?_⟩
          · rw [take_snoc hgi, braceSum_append _ c, hbs, hdel]
            omega
          · intro j hj1 hj2
            by_cases hji : j ≤ i
            · exact hpref j hj1 hji
            · have hj : j = i + 1 := by omega
              rw [hj, take_snoc hgi, braceSum_append _ c, hbs, hdel]
              omega

lemma extract_nested_object_balanced {json key s : List Char}
    (hA : allASCII json = true)
    (h : extract_nested_object json key = PRes.ret (some s)) :
    balancedB s = true := by
  simp only [extract_nested_object] at h
  split at h
  · injection h with h
    exact absurd h (by simp)
  · rename_i rest hF
    by_cases hhd : (rustTrimStart rest).head? = some '\x7b'
    · rw [if_pos hhd] at h
      split at h
      · injection h with h
        exact absurd h (by simp)
      · rename_i e hbe
        obtain ⟨k, hk⟩ := findAfter_drop json (mkPattern key) rest hF
        have hrest : allASCII rest = true := by
          rw [hk]
          exact allASCII_subset (List.drop_subset k json) hA
        have hac : allASCII (rustTrimStart rest) = true :=
          allASCII_subset ((List.dropWhile_sublist rustIsWhitespace).subset) hrest
        obtain ⟨he, hbal⟩ := braceEndLoop_balanced (rustTrimStart rest)
          (rustTrimStart rest) 0 0 hhd (by simp) (Or.inl ⟨rfl, rfl⟩) e hbe
        rw [byteTake_ascii _ _ hac, if_pos he] at h
        injection h with h
        injection h with h
        rw [← h]
        exact hbal
    · rw [if_neg hhd] at h
      injection h with h
      exact absurd h (by simp)

/-- C8 (amended): on ASCII text — where the character positions the
scanners compute coincide with the byte indices they slice with —
every span yielded by the top-level array splitter, and every span
returned by the nested-object extractor, is brace-balanced: it begins
with `{`, ends with `}`, has equally many opening and closing braces,
and no prefix closes more braces than it opened.  (On non-ASCII text
the character-position-as-byte-index slicing can mis-slice, see the
counterexample.) -/
theorem spans_brace_balanced_ascii_amended :
    (∀ (content : List Char) (spans : List (List Char)),
        allASCII content = true →
        split_json_objects content = PRes.ret spans →
        ∀ x ∈ spans, balancedB x = true) ∧
    (∀ (json key s : List Char),
        allASCII json = true →
        extract_nested_object json key = PRes.ret (some s) →
        balancedB s = true) := by
  constructor
  · intro content spans hA hsp x hx
    exact splitLoop_balanced content content 0 0 0 hA rfl
      (fun h1 => absurd h1 (by decide)) spans hsp x hx
  · intro json key s hA h
    exact extract_nested_object_balanced hA h

/-- Counterexample to C8 as stated: on the (bracket-stripped) content
`éé{}` the splitter records the *character* positions 2 and 3 for the
braces, but slices with them as *byte* indices; since each `é` is two
UTF-8 bytes, bytes 2..4 are the second `é`, so the emitted span is
`é` — not brace-balanced. -/
theorem spans_brace_balanced_counterexample :
    split_json_objects ("éé\x7b\x7d".toList) = PRes.ret [['é']] ∧
    balancedB ['é'] = false := by
  refine ⟨by decide, by decide⟩

theorem spans_brace_balanced_ascii_amended_witness :
    balancedB ("\x7b\"a\":1\x7d".toList) = true ∧
    balancedB ("\x7b\x7d".toList) = true :=
  ⟨spans_brace_balanced_ascii_amended.1 ("\x7b\"a\":1\x7d".toList)
      [("\x7b\"a\":1\x7d".toList)] (by decide) (by decide)
      ("\x7b\"a\":1\x7d".toList) (by decide),
    spans_brace_balanced_ascii_amended.2 ("\"repo\":\x7b\x7d".toList) repoKey
      ("\x7b\x7d".toList) (by decide) (by decide)⟩

/-!  Shape lemmas for `parse_events` (claims C1–C3). -/

/-- Result `r` is a returned `Err`. -/
def returnsErr (r : PRes (RustResult ActivityError (List GitHubEvent))) : Prop :=
  ∃ e, r = PRes.ret (RustResult.Err e)

/-- Result `r` is a returned `Ok`. -/
def returnsOk (r : PRes (RustResult ActivityError (List GitHubEvent))) : Prop :=
  ∃ evs, r = PRes.ret (RustResult.Ok evs)

lemma parse_events_of_brackets {s : List Char}
    (h1 : (rustTrim s).head? = some '[') (h2 : (rustTrim s).getLast? = some ']') :
    parse_events s = parse_events_rest (rustTrim s) := by
  rw [parse_events]
  simp [h1, h2]

lemma parse_events_of_not_brackets {s : List Char}
    (h : ¬ ((rustTrim s).head? = some '[' ∧ (rustTrim s).getLast? = some ']')) :
    parse_events s =
      PRes.ret (RustResult.Err (ActivityError.ParseError "Expected JSON array")) := by
  rcases not_and_or.mp h with h1 | h1 <;>
    · rw [parse_events]
      simp [h1]

/-- Once the bracket check has passed, the continuation returns either
a panic or an `Ok`, never an `Err`. -/
lemma parse_events_rest_ok_or_panic (t : List Char) :
    parse_events_rest t = PRes.panicked ∨
      ∃ evs, parse_events_rest t = PRes.ret (RustResult.Ok evs) := by
  simp only [parse_events_rest]
  split
  · exact Or.inl rfl
  · split
    · exact Or.inr ⟨[], rfl⟩
    · split
      · exact Or.inl rfl
      · rename_i objects heq2
        cases hL : eventsLoop objects with
        | panicked => exact Or.inl rfl
        | ret evs => exact Or.inr ⟨evs, rfl⟩

/-- C2 (amended): `parse_events` returns an `Err` — always the
structural `ParseError "Expected JSON array"` — exactly when the
trimmed buffer does not start with `[` or does not end with `]`; in
every other case in which evaluation completes without the
char-boundary panic (see the counterexample and claim C3), it returns
an `Ok` list of records. -/
theorem parse_events_error_iff_unbracketed_amended :
    ∀ s : List Char,
      (returnsErr (parse_events s) ↔
        ¬ ((rustTrim s).head? = some '[' ∧ (rustTrim s).getLast? = some ']')) ∧
      (((rustTrim s).head? = some '[' ∧ (rustTrim s).getLast? = some ']') →
        parse_events s ≠ PRes.panicked → returnsOk (parse_events s)) ∧
      (¬ ((rustTrim s).head? = some '[' ∧ (rustTrim s).getLast? = some ']') →
        parse_events s =
          PRes.ret (RustResult.Err (ActivityError.ParseError "Expected JSON array"))) := by
  intro s
  by_cases hb : ((rustTrim s).head? = some '[' ∧ (rustTrim s).getLast? = some ']')
  · have hpe : parse_events s = parse_events_rest (rustTrim s) :=
      parse_events_of_brackets hb.1 hb.2
    refine ⟨?_, ?_, fun hcontra => absurd hb hcontra⟩
    · rw [hpe]
      constructor
      · rintro ⟨e, hereq⟩
        rcases parse_events_rest_ok_or_panic (rustTrim s) with h | ⟨evs, h⟩
        · rw [h] at hereq
          exact absurd hereq (by simp)
        · rw [h] at hereq
          injection hereq with hx
          exact RustResult.noConfusion hx
      · intro hcontra
        exact absurd hb hcontra
    · intro _ hnp
      rw [hpe] at hnp ⊢
      rcases parse_events_rest_ok_or_panic (rustTrim s) with h | h
      · exact absurd h hnp
      · exact h
  · have hpe : parse_events s =
        PRes.ret (RustResult.Err (ActivityError.ParseError "Expected JSON array")) :=
      parse_events_of_not_brackets hb
    exact ⟨⟨fun _ => hb, fun _ => ⟨_, hpe⟩⟩, fun hcontra => absurd hcontra hb, fun _ => hpe⟩

/-- Counterexample to C2 as stated: `[{éé}]` is bracket-delimited
after trimming, so the claim says `parse_events` returns `Ok`; instead
the splitter slices the span `{éé}` at byte index 4 — a character
position, which lands inside the second two-byte `é` — and the call
panics, returning neither `Ok` nor `Err`. -/
theorem parse_events_bracketed_panic_counterexample :
    (rustTrim ("[\x7béé\x7d]".toList)).head? = some '[' ∧
    (rustTrim ("[\x7béé\x7d]".toList)).getLast? = some ']' ∧
    parse_events ("[\x7béé\x7d]".toList) = PRes.panicked := by
  refine ⟨by decide, by decide, by decide⟩

theorem parse_events_error_iff_unbracketed_amended_witness :
    returnsOk (parse_events ("[]".toList)) ∧ returnsErr (parse_events ("x".toList)) :=
  ⟨(parse_events_error_iff_unbracketed_amended ("[]".toList)).2.1
      ⟨by decide, by decide⟩ (by decide),
    ((parse_events_error_iff_unbracketed_amended ("x".toList)).1).mpr (by decide)⟩

/-- C3: the code can panic.  On the complete UTF-8 buffer `[é{}]` the
splitter emits the span `&content[1..=2]` where 1 and 2 are *character*
positions of `{` and `}` in `é{}`, but byte 1 lies inside the two-byte
`é`, so the slice is not on a character boundary and the whole call
aborts instead of producing records or a structural error. -/
theorem parse_events_char_boundary_panic :
    parse_events ("[é\x7b\x7d]".toList) = PRes.panicked := by
  decide

/-- C1 (amended): when the bracket check passes and evaluation
completes without the char-boundary panic, an object span whose
required-field extraction fails (`parse_event` returns `Err`)
contributes zero records, the records of every other span are returned
in order (`collect`), and the failure is not surfaced: the result is
`Ok`. -/
theorem parse_events_skips_failed_span_amended :
    ∀ (s mid : List Char) (spans : List (List Char)) (k : Nat)
      (obj : List Char) (e : ActivityError),
      (rustTrim s).head? = some '[' →
      (rustTrim s).getLast? = some ']' →
      byteSlice (rustTrim s) 1 (byteLenL (rustTrim s) - 1) = some mid →
      split_json_objects (rustTrim mid) = PRes.ret spans →
      spans.get? k = some obj →
      parse_event obj = PRes.ret (RustResult.Err e) →
      parse_events s ≠ PRes.panicked →
      parse_events s = PRes.ret (RustResult.Ok (collect spans)) ∧
        collect spans = collect (spans.eraseIdx k) := by
  intro s mid spans k obj e h1 h2 hbs hsp hk he hnp
  refine ⟨?_, collect_eraseIdx spans k obj e hk he⟩
  rw [parse_events_of_brackets h1 h2] at hnp ⊢
  simp only [parse_events_rest, hbs] at hnp ⊢
  by_cases hce : (rustTrim mid).isEmpty = true
  · exfalso
    have hmt : rustTrim mid = [] := by
      cases hq : rustTrim mid with
      | nil => rfl
      | cons a l =>
        rw [hq] at hce
        simp at hce
    rw [hmt] at hsp
    have hnil : split_json_objects ([] : List Char) = PRes.ret [] := rfl
    rw [hnil] at hsp
    injection hsp with hsp
    rw [← hsp] at hk
    simp [List.get?] at hk
  · rw [if_neg hce] at hnp ⊢
    simp only [hsp] at hnp ⊢
    rcases eventsLoop_eq_collect spans with hL | hL
    · rw [hL] at hnp
      exact absurd rfl hnp
    · rw [hL]
      rfl

/-- Counterexample to C1 as stated: the content splits into two spans;
the first fails required-field extraction (no `type`), which is the
claim's premise, and the claim then promises the records of every
other span.  But the second span (mis-sliced already: the two-byte
`é`s shift the byte positions, so its closing `"}` is cut off) makes
`extract_nested_object` slice `{éé...` at byte index 4 — inside the
second `é` — and the whole `parse_events` call panics instead of
returning the other spans' records. -/
theorem parse_events_skip_policy_counterexample :
    split_json_objects
        ("\x7b\"repo\":\x7b\"name\":\"a/b\"\x7d\x7d,\x7b\"repo\":\x7béé\x7d,\"type\":\"WatchEvent\"\x7d".toList) =
      PRes.ret ["\x7b\"repo\":\x7b\"name\":\"a/b\"\x7d\x7d".toList,
        "\x7b\"repo\":\x7béé\x7d,\"type\":\"WatchEvent".toList] ∧
    parse_event ("\x7b\"repo\":\x7b\"name\":\"a/b\"\x7d\x7d".toList) =
      PRes.ret (RustResult.Err (ActivityError.ParseError "Missing 'type' field")) ∧
    parse_events
        ("[\x7b\"repo\":\x7b\"name\":\"a/b\"\x7d\x7d,\x7b\"repo\":\x7béé\x7d,\"type\":\"WatchEvent\"\x7d]".toList) =
      PRes.panicked := by
  refine ⟨by decide, by decide, by decide⟩

theorem parse_events_skips_failed_span_amended_witness :
    parse_events
        ("[\x7b\"repo\":\x7b\"name\":\"a/b\"\x7d\x7d,\x7b\"type\":\"WatchEvent\",\"repo\":\x7b\"name\":\"c/d\"\x7d\x7d]".toList) =
      PRes.ret (RustResult.Ok (collect
        ["\x7b\"repo\":\x7b\"name\":\"a/b\"\x7d\x7d".toList,
          "\x7b\"type\":\"WatchEvent\",\"repo\":\x7b\"name\":\"c/d\"\x7d\x7d".toList])) ∧
    collect ["\x7b\"repo\":\x7b\"name\":\"a/b\"\x7d\x7d".toList,
        "\x7b\"type\":\"WatchEvent\",\"repo\":\x7b\"name\":\"c/d\"\x7d\x7d".toList] =
      collect (["\x7b\"repo\":\x7b\"name\":\"a/b\"\x7d\x7d".toList,
        "\x7b\"type\":\"WatchEvent\",\"repo\":\x7b\"name\":\"c/d\"\x7d\x7d".toList].eraseIdx 0) :=
  parse_events_skips_failed_span_amended
    ("[\x7b\"repo\":\x7b\"name\":\"a/b\"\x7d\x7d,\x7b\"type\":\"WatchEvent\",\"repo\":\x7b\"name\":\"c/d\"\x7d\x7d]".toList)
    ("\x7b\"repo\":\x7b\"name\":\"a/b\"\x7d\x7d,\x7b\"type\":\"WatchEvent\",\"repo\":\x7b\"name\":\"c/d\"\x7d\x7d".toList)
    ["\x7b\"repo\":\x7b\"name\":\"a/b\"\x7d\x7d".toList,
      "\x7b\"type\":\"WatchEvent\",\"repo\":\x7b\"name\":\"c/d\"\x7d\x7d".toList]
    0 ("\x7b\"repo\":\x7b\"name\":\"a/b\"\x7d\x7d".toList)
    (ActivityError.ParseError "Missing 'type' field")
    (by decide) (by decide) (by decide) (by decide) (by decide) (by decide) (by decide)

end GHParser
